import Mathlib

/-!
Verification of the core logic of `notion-agent-hub`: the target resolver
(`resolve_target` in `scripts/notion_client.py` and `scripts/create_project.py`)
and the template engine (`replace_placeholders` in `scripts/create_project.py`),
together with the body-finalization steps in `create_project_page` and
`cmd_create_page`.

The two `resolve_target` implementations are duplicated verbatim across the two
entry points (the only difference is that `create_project.py` inlines the
config-existence check that `notion_client.py` keeps in `load_config`); they are
modelled here as one function over an explicit `Option Json` configuration
argument (`none` models a missing `notion-config.json` file).

Python strings are modelled as `String` / `List Char`; Python dicts produced by
`json.load` are modelled as association lists with pairwise-distinct keys in
insertion order, and JSON values as the inductive type `Json`.

`str.replace` is modelled by a left-to-right non-overlapping scanner
(`replaceGo`) driven by a fuel argument that starts at the length of the
subject string; since every step consumes at least one character, the fuel
never runs out on the real calls, and the fuel-based definition is
structurally recursive, hence computable by `rfl`/`decide`.
-/

/-- One step of CPython `str.replace` for a nonempty pattern `p :: ps`:
scan left to right; when the pattern is a prefix of the remaining input, emit
`rep` and skip past the matched occurrence, otherwise copy one character.
`fuel 0` returns the input unchanged; callers pass `fuel = s.length`, which is
always sufficient because each step consumes at least one character. -/
def replaceGo (p : Char) (ps rep : List Char) : Nat → List Char → List Char
  | 0, s => s
  | _ + 1, [] => []
  | fuel + 1, c :: rest =>
    if (p :: ps).isPrefixOf (c :: rest) then
      rep ++ replaceGo p ps rep fuel (rest.drop ps.length)
    else c :: replaceGo p ps rep fuel rest

/-- The piece decomposition computed by the same scan as `replaceGo`: the
maximal pattern-free segments of `s` between the non-overlapping left-to-right
occurrences of the pattern `p :: ps`. `fuel 0` returns `[s]`. -/
def splitGo (p : Char) (ps : List Char) : Nat → List Char → List (List Char)
  | 0, s => [s]
  | _ + 1, [] => [[]]
  | fuel + 1, c :: rest =>
    if (p :: ps).isPrefixOf (c :: rest) then
      [] :: splitGo p ps fuel (rest.drop ps.length)
    else
      match splitGo p ps fuel rest with
      | [] => [[c]]
      | q :: qs => (c :: q) :: qs

/-- Join a list of pieces with a separator: `joinSep sep [a, b, c] = a ++ sep ++ b ++ sep ++ c`. -/
def joinSep (sep : List Char) : List (List Char) → List Char
  | [] => []
  | [q] => q
  | q :: q2 :: qs => q ++ sep ++ joinSep sep (q2 :: qs)

/-- The pattern `pat` occurs (as a contiguous substring) inside `s`. -/
def occursIn (pat s : List Char) : Prop := ∃ l r, s = l ++ pat ++ r

/-- Boolean occurrence check, used to state decidable hypotheses. -/
def hasOccur (pat : List Char) : List Char → Bool
  | [] => pat.isEmpty
  | c :: rest => pat.isPrefixOf (c :: rest) || hasOccur pat rest

/-- Model of CPython `s.replace(pat, rep)` on character lists. For an empty
pattern CPython inserts the replacement at every character boundary
(`"ab".replace("", "-") == "-a-b-"`); no call in this repository uses an
empty pattern. -/
def strReplace (pat rep s : List Char) : List Char :=
  match pat with
  | [] => rep ++ (s.map (fun c => c :: rep)).flatten
  | p :: ps => replaceGo p ps rep s.length s

/-- Model of the Python expression `s.replace(old, new)`. -/
def pyReplace (s old new : String) : String := ⟨strReplace old.data new.data s.data⟩

/-- Character list of the placeholder token `"{{" + k + "}}"` (the Python
f-string `f"{{{{{key}}}}}"` in `create_project.py` line 69), with the head
character split off so the nonempty-pattern scanner applies directly. -/
def tokTail (k : String) : List Char := '{' :: (k.data ++ ['}', '}'])

/-- Full character list of the placeholder token for key `k`. -/
def tokChars (k : String) : List Char := '{' :: tokTail k

/-- The placeholder token for key `k` as a string. -/
def tokenOf (k : String) : String := ⟨tokChars k⟩

/-- Model of the string-leaf loop of `replace_placeholders`
(`create_project.py` lines 67-70): fold the replacement pairs in iteration
order over the accumulated string, replacing all occurrences of each token. -/
def substStr (replacements : List (String × String)) (s : String) : String :=
  replacements.foldl (fun acc kv => pyReplace acc (tokenOf kv.1) kv.2) s

/-- Simultaneous (single-pass) substitution, for contrast with the sequential
`substStr`: one left-to-right scan of the original string; at each position the
first replacement pair whose token is a prefix is applied, and the inserted
replacement text is never rescanned. This is not what the Python code does. -/
def simGo (reps : List (String × String)) : Nat → List Char → List Char
  | 0, s => s
  | _ + 1, [] => []
  | fuel + 1, c :: rest =>
    match reps.find? (fun kv => (tokChars kv.1).isPrefixOf (c :: rest)) with
    | some kv => kv.2.data ++ simGo reps fuel ((c :: rest).drop (tokChars kv.1).length)
    | none => c :: simGo reps fuel rest

/-- String-level wrapper for `simGo`. -/
def simultSubst (reps : List (String × String)) (s : String) : String :=
  ⟨simGo reps s.data.length s.data⟩

/-- JSON-like trees, the shape of values produced by `json.load`: the template
documents and the configuration document. Objects are association lists of
fields in insertion order (Python dicts parsed from JSON have pairwise-distinct
keys). -/
inductive Json where
  | null
  | bool (b : Bool)
  | num (n : Int)
  | str (s : String)
  | arr (xs : List Json)
  | obj (fields : List (String × Json))

/-- Python dict read `d[k]` / `d.get(k)` on an association list with distinct
keys: the value of the first (hence only) field named `k`. -/
def lookupDict (fs : List (String × Json)) (k : String) : Option Json :=
  (fs.find? (fun kv => kv.1 == k)).map (fun kv => kv.2)

/-- Model of `replace_placeholders(obj, replacements)` (`create_project.py`
lines 65-75): strings get every placeholder replaced via `substStr`; lists and
dicts are rebuilt by recursing into elements and mapping values (keys are
copied unchanged); all other scalars are returned as they are. -/
def replace_placeholders (replacements : List (String × String)) : Json → Json
  | .str s => .str (substStr replacements s)
  | .arr xs => .arr (xs.attach.map (fun x => replace_placeholders replacements x.1))
  | .obj fs => .obj (fs.attach.map (fun kv => (kv.1.1, replace_placeholders replacements kv.1.2)))
  | j => j
termination_by j => sizeOf j
decreasing_by
  · have h1 := List.sizeOf_lt_of_mem x.2
    simp only [Json.arr.sizeOf_spec]
    omega
  · have h1 := List.sizeOf_lt_of_mem kv.2
    have h2 : sizeOf kv.1.2 < sizeOf kv.1 := by
      obtain ⟨⟨a, b⟩, hm⟩ := kv
      simp only [Prod.mk.sizeOf_spec]
      omega
    simp only [Json.obj.sizeOf_spec]
    omega

/-- Erase the contents of every string leaf, keeping everything else (shape,
field keys, scalars) intact. Two documents have the same `eraseStrings` image
iff they are structurally identical up to the contents of string leaves. -/
def eraseStrings : Json → Json
  | .str _ => .str ""
  | .arr xs => .arr (xs.attach.map (fun x => eraseStrings x.1))
  | .obj fs => .obj (fs.attach.map (fun kv => (kv.1.1, eraseStrings kv.1.2)))
  | j => j
termination_by j => sizeOf j
decreasing_by
  · have h1 := List.sizeOf_lt_of_mem x.2
    simp only [Json.arr.sizeOf_spec]
    omega
  · have h1 := List.sizeOf_lt_of_mem kv.2
    have h2 : sizeOf kv.1.2 < sizeOf kv.1 := by
      obtain ⟨⟨a, b⟩, hm⟩ := kv
      simp only [Prod.mk.sizeOf_spec]
      omega
    simp only [Json.obj.sizeOf_spec]
    omega

/-- The string leaves of a document, in depth-first order over array elements
and object field values. -/
def stringLeaves : Json → List String
  | .str s => [s]
  | .arr xs => (xs.attach.map (fun x => stringLeaves x.1)).flatten
  | .obj fs => (fs.attach.map (fun kv => stringLeaves kv.1.2)).flatten
  | _ => []
termination_by j => sizeOf j
decreasing_by
  · have h1 := List.sizeOf_lt_of_mem x.2
    simp only [Json.arr.sizeOf_spec]
    omega
  · have h1 := List.sizeOf_lt_of_mem kv.2
    have h2 : sizeOf kv.1.2 < sizeOf kv.1 := by
      obtain ⟨⟨a, b⟩, hm⟩ := kv
      simp only [Prod.mk.sizeOf_spec]
      omega
    simp only [Json.obj.sizeOf_spec]
    omega

/-- Python dict assignment `d[k] = v` on an insertion-ordered association list:
if the key is present its value is updated in place (position kept), otherwise
the new pair is appended at the end. -/
def dictSet (fs : List (String × Json)) (k : String) (v : Json) : List (String × Json) :=
  if fs.any (fun kv => kv.1 == k) then fs.map (fun kv => if kv.1 == k then (k, v) else kv)
  else fs ++ [(k, v)]

/-- Python `d.pop(k, None)` restricted to its effect on the dict: remove the
field named `k` when present. -/
def dictPop (fs : List (String × Json)) (k : String) : List (String × Json) :=
  fs.filter (fun kv => kv.1 != k)

/-- The body finalization of `create_project_page` (`create_project.py` lines
89-92), applied to the substituted template body: set `parent`, set `icon`,
then drop a stray top-level `object` field. -/
def create_project_finalize (body : List (String × Json)) (parent_id icon : String) :
    List (String × Json) :=
  dictPop
    (dictSet (dictSet body "parent" (.obj [("page_id", .str parent_id)]))
      "icon" (.obj [("type", .str "emoji"), ("emoji", .str icon)]))
    "object"

/-- The body finalization of `cmd_create_page` (`notion_client.py` line 88):
only `parent` is set; no icon is added and no `object` field is removed. -/
def cmd_create_page_finalize (body : List (String × Json)) (parent_id : String) :
    List (String × Json) :=
  dictSet body "parent" (.obj [("page_id", .str parent_id)])

/-- The raw-identifier test inlined in both `resolve_target` implementations
(`notion_client.py` lines 50-51, `create_project.py` lines 40-41):
strip dashes with `str.replace`, then require length exactly 32 and every
character in `"0123456789abcdef"`. -/
def looks_like_raw_id (name : String) : Bool :=
  let cleaned := strReplace ['-'] [] name.data
  cleaned.length == 32 && cleaned.all (fun c => "0123456789abcdef".data.contains c)

/-- Outcome of `resolve_target`. The Python code reports errors by printing to
stderr and calling `sys.exit(1)`; the spec names these exits
`ConfigNotFoundError` (config file absent) and `UnknownTargetError` (name not a
key of `targets`; the error message enumerates the available friendly names,
carried here as the constructor argument). `pyError` marks inputs on which the
Python code would raise an uncaught exception (`KeyError`/`TypeError`/
`AttributeError`) instead of exiting cleanly. -/
inductive ResolveResult where
  | ok (id : Json)
  | configNotFound
  | unknownTarget (available : List String)
  | pyError

/-- Model of `resolve_target(name)` (`notion_client.py` lines 47-59,
`create_project.py` lines 39-53) over an explicit configuration argument:
`none` models a missing `notion-config.json`, `some config` the parsed JSON
document. Raw identifiers are returned unchanged without touching the config;
otherwise `targets = config.get("targets", {})` is consulted and
`targets[name]["id"]` is returned, with the error cases listed in
`ResolveResult`. -/
def resolve_target (name : String) (config? : Option Json) : ResolveResult :=
  if looks_like_raw_id name then .ok (.str name)
  else
    match config? with
    | none => .configNotFound
    | some (.obj cfg) =>
      match (lookupDict cfg "targets").getD (.obj []) with
      | .obj targets =>
        match lookupDict targets name with
        | none => .unknownTarget (targets.map (fun kv => kv.1))
        | some (.obj entry) =>
          match lookupDict entry "id" with
          | some v => .ok v
          | none => .pyError
        | some _ => .pyError
      | _ => .pyError
    | some _ => .pyError

/-!
Heap model for the mutation claim. Python objects live on a heap addressed by
`Nat`; compound values hold addresses of their children. `replace_placeholders`
is re-expressed as a heap computation that reads existing cells and allocates
fresh cells for its results; the frame theorem below shows it never writes to
any pre-existing address, which is the precise content of "the input argument
is not mutated".
-/

/-- A Python runtime value: scalars carry their contents, containers carry the
heap addresses of their children. -/
inductive PyVal where
  | vnull
  | vbool (b : Bool)
  | vnum (n : Int)
  | vstr (s : String)
  | vlist (elems : List Nat)
  | vdict (fields : List (String × Nat))

/-- A heap: a partial map from addresses to values together with the next
fresh address. -/
structure Heap where
  mem : Nat → Option PyVal
  next : Nat

/-- Well-formed heap: nothing is stored at or beyond the allocation pointer. -/
def heapWF (h : Heap) : Prop := ∀ b, h.next ≤ b → h.mem b = none

/-- Allocate a fresh cell holding `v`; returns its address and the new heap. -/
def halloc (h : Heap) (v : PyVal) : Nat × Heap :=
  (h.next, ⟨fun b => if b = h.next then some v else h.mem b, h.next + 1⟩)

/-- Heap-level `replace_placeholders`, mapped over a list of sibling object
addresses (as the list/dict comprehensions in lines 72 and 74 do). Strings are
replaced by freshly allocated substituted strings, lists and dicts are rebuilt
as fresh cells over recursively processed children (dict keys are copied
unchanged), and scalars are returned as the same address (`return obj`).
The fuel only bounds recursion depth; `none` means fuel ran out or a dangling
address was read, neither of which occurs on real inputs. -/
def replacePHs (reps : List (String × String)) : Nat → List Nat → Heap → Option (List Nat × Heap)
  | 0, _, _ => none
  | _ + 1, [], h => some ([], h)
  | fuel + 1, a :: rest, h =>
    match h.mem a with
    | none => none
    | some (.vstr s) =>
      let p := halloc h (.vstr (substStr reps s))
      (replacePHs reps fuel rest p.2).map (fun q => (p.1 :: q.1, q.2))
    | some (.vlist es) =>
      (replacePHs reps fuel es h).bind (fun r =>
        let p := halloc r.2 (.vlist r.1)
        (replacePHs reps fuel rest p.2).map (fun q => (p.1 :: q.1, q.2)))
    | some (.vdict fs) =>
      (replacePHs reps fuel (fs.map (fun kv => kv.2)) h).bind (fun r =>
        let p := halloc r.2 (.vdict ((fs.map (fun kv => kv.1)).zip r.1))
        (replacePHs reps fuel rest p.2).map (fun q => (p.1 :: q.1, q.2)))
    | some _ => (replacePHs reps fuel rest h).map (fun q => (a :: q.1, q.2))

/-- Heap-level `replace_placeholders` on a single root address. -/
def replacePlaceholdersH (reps : List (String × String)) (fuel : Nat) (a : Nat) (h : Heap) :
    Option (Nat × Heap) :=
  (replacePHs reps fuel [a] h).bind (fun p => p.1.head?.map (fun a1 => (a1, p.2)))

/-- Decode the documents rooted at a list of heap addresses back into `Json`
trees (fuel-bounded). -/
def readVals : Nat → Heap → List Nat → Option (List Json)
  | 0, _, _ => none
  | _ + 1, _, [] => some []
  | fuel + 1, h, a :: rest =>
    match h.mem a with
    | none => none
    | some .vnull => (readVals fuel h rest).map (fun ds => Json.null :: ds)
    | some (.vbool b) => (readVals fuel h rest).map (fun ds => Json.bool b :: ds)
    | some (.vnum n) => (readVals fuel h rest).map (fun ds => Json.num n :: ds)
    | some (.vstr s) => (readVals fuel h rest).map (fun ds => Json.str s :: ds)
    | some (.vlist es) =>
      (readVals fuel h es).bind (fun ds =>
        (readVals fuel h rest).map (fun rs => Json.arr ds :: rs))
    | some (.vdict fs) =>
      (readVals fuel h (fs.map (fun kv => kv.2))).bind (fun ds =>
        (readVals fuel h rest).map (fun rs => Json.obj ((fs.map (fun kv => kv.1)).zip ds) :: rs))

/-- Decode the document rooted at one heap address. -/
def readVal (fuel : Nat) (h : Heap) (a : Nat) : Option Json :=
  (readVals fuel h [a]).bind List.head?

/-!
Concrete inputs used by the witnesses below.
-/

/-- A raw Notion identifier: 32 lowercase hex characters with dash grouping. -/
def rawIdSample : String := "a1b2c3d4-e5f6-7890-abcd-ef1234567890"

/-- A configuration document whose `targets` table contains `rawIdSample`
itself as a friendly name, mapped to a different id. -/
def cfgWithRawKey : Json :=
  .obj [("targets", .obj [(rawIdSample, .obj [("id", .str "elsewhere")])])]

/-- Configuration fields with a normal `targets` table. -/
def cfgFields : List (String × Json) :=
  [("targets", .obj [("project-db", .obj [("id", .str "xyz")])])]

/-- Configuration fields with an empty `targets` table. -/
def cfgEmptyTargets : List (String × Json) :=
  [("targets", .obj [])]

/-- Configuration fields lacking a `targets` key entirely. -/
def cfgNoTargets : List (String × Json) :=
  [("other", .str "value")]

/-- Replacement pairs where the value inserted for the first key contains the
token of the second key. -/
def seqReps : List (String × String) :=
  [("A", "\x7b\x7bB\x7d\x7d"), ("B", "x")]

/-- Replacement set of the spec scenario. -/
def repsSample : List (String × String) := [("PROJECT_NAME", "Apollo")]

/-- Template document of the spec scenario, containing one placeholder. -/
def docSample : Json :=
  .obj [("properties", .obj [("title", .obj [("title",
    .arr [.obj [("text", .obj [("content", .str "\x7b\x7bPROJECT_NAME\x7d\x7d")])]])])])]

/-- A substituted template body carrying a stray `object` field and one other
field. -/
def bodySample : List (String × Json) :=
  [("object", .str "page"), ("properties", .obj [])]

/-- A one-cell heap holding the string `"{{X}}"` at address 0. -/
def heapSample : Heap :=
  ⟨fun b => if b = 0 then some (.vstr "\x7b\x7bX\x7d\x7d") else none, 1⟩

/-- Replacements used with `heapSample`. -/
def repsHeap : List (String × String) := [("X", "y")]

/-- The result of running heap-level substitution on `heapSample`. -/
def heapRunResult : Nat × Heap :=
  (replacePlaceholdersH repsHeap 2 0 heapSample).getD (0, heapSample)

/-!
Helper lemmas: lists, attach, prefixes and occurrences.
-/

/-- Mapping a function over `attach` is mapping it over the list. -/
theorem attachMapFst {α β : Type} (l : List α) (f : α → β) :
    l.attach.map (fun x => f x.1) = l.map f := by
  simp

/-- `List.isPrefixOf` holds exactly when the subject extends the pattern. -/
theorem isPrefixOf_iff_exists (pat : List Char) :
    ∀ s : List Char, pat.isPrefixOf s = true ↔ ∃ r, s = pat ++ r := by
  induction pat with
  | nil => intro s; simp [List.isPrefixOf]
  | cons a as ih =>
    intro s
    cases s with
    | nil =>
      simp [List.isPrefixOf]
    | cons c rest =>
      simp only [List.isPrefixOf, Bool.and_eq_true, beq_iff_eq, ih rest, List.cons_append]
      constructor
      · rintro ⟨hac, r, hr⟩
        exact ⟨r, by rw [hac, hr]⟩
      · rintro ⟨r, hr⟩
        injection hr with h1 h2
        exact ⟨h1.symm, r, h2⟩

/-- Occurrence in a cons: either the pattern starts right here, or it occurs
in the tail. -/
theorem occursIn_cons (pat : List Char) (c : Char) (s : List Char) :
    occursIn pat (c :: s) ↔ (∃ r, c :: s = pat ++ r) ∨ occursIn pat s := by
  constructor
  · rintro ⟨l, r, hlr⟩
    cases l with
    | nil => exact Or.inl ⟨r, by simpa using hlr⟩
    | cons x xs =>
      injection hlr with h1 h2
      exact Or.inr ⟨xs, r, h2⟩
  · rintro (⟨r, hr⟩ | ⟨l, r, hlr⟩)
    · exact ⟨[], r, by simpa using hr⟩
    · exact ⟨c :: l, r, by simp [hlr]⟩

/-- Only the empty pattern occurs in the empty string. -/
theorem occursIn_nil_iff (pat : List Char) : occursIn pat [] ↔ pat = [] := by
  constructor
  · rintro ⟨l, r, hlr⟩
    have := congrArg List.length hlr
    simp at this
    exact List.eq_nil_of_length_eq_zero (by omega)
  · rintro rfl
    exact ⟨[], [], rfl⟩

/-- The boolean occurrence check agrees with the occurrence predicate. -/
theorem hasOccur_iff_occursIn (pat : List Char) :
    ∀ s : List Char, hasOccur pat s = true ↔ occursIn pat s := by
  intro s
  induction s with
  | nil => simp [hasOccur, occursIn_nil_iff, List.isEmpty_iff]
  | cons c rest ih =>
    simp only [hasOccur, Bool.or_eq_true, isPrefixOf_iff_exists, ih, occursIn_cons]

/-- An occurrence is at least as long as its host. -/
theorem occursIn_length_le (pat s : List Char) (h : occursIn pat s) :
    pat.length ≤ s.length := by
  obtain ⟨l, r, hlr⟩ := h
  have := congrArg List.length hlr
  simp at this
  omega

/-!
Helper lemmas: the `replaceGo` / `splitGo` / `joinSep` characterization of
`str.replace` for nonempty patterns.
-/

/-- `splitGo` always produces at least one piece. -/
theorem splitGo_ne_nil (p : Char) (ps : List Char) :
    ∀ fuel s, splitGo p ps fuel s ≠ [] := by
  intro fuel
  induction fuel with
  | zero => intro s; simp [splitGo]
  | succ fuel ih =>
    intro s
    match s with
    | [] => simp [splitGo]
    | c :: rest =>
      rw [splitGo]
      by_cases hp : (p :: ps).isPrefixOf (c :: rest)
      · rw [if_pos hp]; simp
      · rw [if_neg hp]
        cases hsp : splitGo p ps fuel rest with
        | nil => simp
        | cons q qs => simp

/-- Joining with any separator after prepending a character to the head piece. -/
theorem joinSep_cons_head (sep : List Char) (c : Char) (q : List Char) (qs : List (List Char)) :
    joinSep sep ((c :: q) :: qs) = c :: joinSep sep (q :: qs) := by
  cases qs with
  | nil => rfl
  | cons q2 qs2 => simp [joinSep]

/-- Re-joining the pieces with the pattern itself reconstructs the subject:
the pieces are exactly the subject with the matched occurrences cut out. -/
theorem joinSep_splitGo (p : Char) (ps : List Char) :
    ∀ fuel s, joinSep (p :: ps) (splitGo p ps fuel s) = s := by
  intro fuel
  induction fuel with
  | zero => intro s; rfl
  | succ fuel ih =>
    intro s
    match s with
    | [] => rfl
    | c :: rest =>
      rw [splitGo]
      by_cases hp : (p :: ps).isPrefixOf (c :: rest)
      · rw [if_pos hp]
        obtain ⟨q, qs, hqe⟩ := List.exists_cons_of_ne_nil (splitGo_ne_nil p ps fuel (rest.drop ps.length))
        rw [hqe, joinSep, ← hqe, ih]
        obtain ⟨r, hr⟩ := (isPrefixOf_iff_exists (p :: ps) (c :: rest)).mp hp
        injection hr with h1 h2
        subst h1
        rw [h2]
        simp [List.drop_left]
      · rw [if_neg hp]
        obtain ⟨q, qs, hqe⟩ := List.exists_cons_of_ne_nil (splitGo_ne_nil p ps fuel rest)
        rw [hqe, joinSep_cons_head, ← hqe, ih]

/-- `replaceGo` is exactly: join the pieces of the scan with the replacement. -/
theorem replaceGo_eq_joinSep (p : Char) (ps rep : List Char) :
    ∀ fuel s, replaceGo p ps rep fuel s = joinSep rep (splitGo p ps fuel s) := by
  intro fuel
  induction fuel with
  | zero => intro s; rfl
  | succ fuel ih =>
    intro s
    match s with
    | [] => rfl
    | c :: rest =>
      rw [replaceGo, splitGo]
      by_cases hp : (p :: ps).isPrefixOf (c :: rest)
      · rw [if_pos hp, if_pos hp]
        obtain ⟨q, qs, hqe⟩ := List.exists_cons_of_ne_nil (splitGo_ne_nil p ps fuel (rest.drop ps.length))
        rw [hqe, joinSep, ← hqe, ih]
        simp
      · rw [if_neg hp, if_neg hp]
        obtain ⟨q, qs, hqe⟩ := List.exists_cons_of_ne_nil (splitGo_ne_nil p ps fuel rest)
        rw [hqe, joinSep_cons_head, ← hqe, ih]

/-- The head piece of the scan is an initial segment of the subject. -/
theorem splitGo_head_append (p : Char) (ps : List Char) (fuel : Nat) (s q : List Char)
    (qs : List (List Char)) (h : splitGo p ps fuel s = q :: qs) : ∃ r, s = q ++ r := by
  have hj := joinSep_splitGo p ps fuel s
  rw [h] at hj
  cases qs with
  | nil => exact ⟨[], by simp [joinSep] at hj; simp [hj]⟩
  | cons q2 qs2 =>
    rw [joinSep] at hj
    exact ⟨(p :: ps) ++ joinSep (p :: ps) (q2 :: qs2), by rw [← hj]; simp⟩

/-- No piece of the scan contains an occurrence of the pattern, provided the
fuel covers the subject (which the real calls guarantee). -/
theorem splitGo_no_occur (p : Char) (ps : List Char) :
    ∀ fuel s, s.length ≤ fuel → ∀ q ∈ splitGo p ps fuel s, ¬ occursIn (p :: ps) q := by
  intro fuel
  induction fuel with
  | zero =>
    intro s hs q hq
    have : s = [] := List.eq_nil_of_length_eq_zero (by omega)
    subst this
    simp [splitGo] at hq
    subst hq
    simp [occursIn_nil_iff]
  | succ fuel ih =>
    intro s hs q hq
    match s with
    | [] =>
      simp [splitGo] at hq
      subst hq
      simp [occursIn_nil_iff]
    | c :: rest =>
      rw [splitGo] at hq
      by_cases hp : (p :: ps).isPrefixOf (c :: rest)
      · rw [if_pos hp] at hq
        simp only [List.mem_cons] at hq
        rcases hq with rfl | hq
        · simp [occursIn_nil_iff]
        · have hlen : (rest.drop ps.length).length ≤ fuel := by
            simp at hs ⊢
            omega
          exact ih (rest.drop ps.length) hlen q hq
      · rw [if_neg hp] at hq
        obtain ⟨q0, qs0, hqe⟩ := List.exists_cons_of_ne_nil (splitGo_ne_nil p ps fuel rest)
        rw [hqe] at hq
        have hlen : rest.length ≤ fuel := by
          simp at hs
          omega
        simp only [List.mem_cons] at hq
        rcases hq with rfl | hq
        · intro hocc
          rcases (occursIn_cons (p :: ps) c q0).mp hocc with ⟨r, hr⟩ | hocc2
          · obtain ⟨r0, hr0⟩ := splitGo_head_append p ps fuel rest q0 qs0 hqe
            have : (p :: ps).isPrefixOf (c :: rest) = true := by
              rw [isPrefixOf_iff_exists]
              refine ⟨r ++ r0, ?_⟩
              rw [hr0]
              have := congrArg (fun l => l ++ r0) hr
              simpa using this
            exact hp this
          · exact ih rest hlen q0 (hqe ▸ List.mem_cons_self q0 qs0) hocc2
        · exact ih rest hlen q (hqe ▸ List.mem_cons_of_mem q0 hq)
  
/-- If the pattern does not occur in the subject, the scan copies it verbatim. -/
theorem replaceGo_id (p : Char) (ps rep : List Char) :
    ∀ fuel s, ¬ occursIn (p :: ps) s → replaceGo p ps rep fuel s = s := by
  intro fuel
  induction fuel with
  | zero => intro s _; rfl
  | succ fuel ih =>
    intro s hno
    match s with
    | [] => rfl
    | c :: rest =>
      have hp : ¬ (p :: ps).isPrefixOf (c :: rest) = true := by
        intro hpre
        obtain ⟨r, hr⟩ := (isPrefixOf_iff_exists (p :: ps) (c :: rest)).mp hpre
        exact hno ⟨[], r, by simpa using hr⟩
      rw [replaceGo, if_neg hp]
      have hrest : ¬ occursIn (p :: ps) rest := by
        intro ⟨l, r, hlr⟩
        exact hno ⟨c :: l, r, by simp [hlr]⟩
      rw [ih rest hrest]

/-!
Helper lemmas: induction over `Json` and unfolding of the tree traversals.
-/

/-- Structural induction principle for `Json` with membership hypotheses for
the children of arrays and objects. -/
theorem Json.myInduction (motive : Json → Prop)
    (hnull : motive .null) (hbool : ∀ b, motive (.bool b))
    (hnum : ∀ n, motive (.num n)) (hstr : ∀ s, motive (.str s))
    (harr : ∀ xs, (∀ x ∈ xs, motive x) → motive (.arr xs))
    (hobj : ∀ fs, (∀ kv ∈ fs, motive kv.2) → motive (.obj fs)) :
    ∀ j, motive j
  | .null => hnull
  | .bool b => hbool b
  | .num n => hnum n
  | .str s => hstr s
  | .arr xs => harr xs (fun x hx => Json.myInduction motive hnull hbool hnum hstr harr hobj x)
  | .obj fs => hobj fs (fun kv hkv => Json.myInduction motive hnull hbool hnum hstr harr hobj kv.2)
termination_by j => sizeOf j
decreasing_by
  · have h1 := List.sizeOf_lt_of_mem hx
    simp only [Json.arr.sizeOf_spec]
    omega
  · have h1 := List.sizeOf_lt_of_mem hkv
    have h2 : sizeOf kv.2 < sizeOf kv := by
      obtain ⟨a, b⟩ := kv
      simp only [Prod.mk.sizeOf_spec]
      omega
    simp only [Json.obj.sizeOf_spec]
    omega

/-- Unfolding `replace_placeholders` on arrays. -/
theorem replace_placeholders_arr (reps : List (String × String)) (xs : List Json) :
    replace_placeholders reps (.arr xs) = .arr (xs.map (replace_placeholders reps)) := by
  rw [replace_placeholders, attachMapFst xs (replace_placeholders reps)]

/-- Unfolding `replace_placeholders` on objects. -/
theorem replace_placeholders_obj (reps : List (String × String)) (fs : List (String × Json)) :
    replace_placeholders reps (.obj fs) =
      .obj (fs.map (fun kv => (kv.1, replace_placeholders reps kv.2))) := by
  rw [replace_placeholders, attachMapFst fs (fun kv => (kv.1, replace_placeholders reps kv.2))]

/-- Unfolding `eraseStrings` on arrays. -/
theorem eraseStrings_arr (xs : List Json) :
    eraseStrings (.arr xs) = .arr (xs.map eraseStrings) := by
  rw [eraseStrings, attachMapFst xs eraseStrings]

/-- Unfolding `eraseStrings` on objects. -/
theorem eraseStrings_obj (fs : List (String × Json)) :
    eraseStrings (.obj fs) = .obj (fs.map (fun kv => (kv.1, eraseStrings kv.2))) := by
  rw [eraseStrings, attachMapFst fs (fun kv => (kv.1, eraseStrings kv.2))]

/-- Unfolding `stringLeaves` on arrays. -/
theorem stringLeaves_arr (xs : List Json) :
    stringLeaves (.arr xs) = (xs.map stringLeaves).flatten := by
  rw [stringLeaves, attachMapFst xs stringLeaves]

/-- Unfolding `stringLeaves` on objects. -/
theorem stringLeaves_obj (fs : List (String × Json)) :
    stringLeaves (.obj fs) = (fs.map (fun kv => stringLeaves kv.2)).flatten := by
  rw [stringLeaves, attachMapFst fs (fun kv => stringLeaves kv.2)]

/-!
Helper lemmas: the substitution pass at the level of whole documents.
-/

/-- Substitution only changes the contents of string leaves: shape, field keys
and non-string scalars are untouched. -/
theorem eraseStrings_replace (reps : List (String × String)) :
    ∀ doc, eraseStrings (replace_placeholders reps doc) = eraseStrings doc := by
  intro doc
  induction doc using Json.myInduction with
  | hnull => simp [replace_placeholders]
  | hbool b => simp [replace_placeholders]
  | hnum n => simp [replace_placeholders]
  | hstr s => simp [replace_placeholders, eraseStrings]
  | harr xs ih =>
    rw [replace_placeholders_arr, eraseStrings_arr, eraseStrings_arr, List.map_map]
    exact congrArg Json.arr (List.map_congr_left ih)
  | hobj fs ih =>
    rw [replace_placeholders_obj, eraseStrings_obj, eraseStrings_obj, List.map_map]
    refine congrArg Json.obj (List.map_congr_left ?_)
    intro kv hkv
    simp only [Function.comp]
    rw [ih kv hkv]

/-- The string leaves of the substituted document are exactly the string
leaves of the input with `substStr` applied to each, in the same order. -/
theorem stringLeaves_replace (reps : List (String × String)) :
    ∀ doc, stringLeaves (replace_placeholders reps doc) = (stringLeaves doc).map (substStr reps) := by
  intro doc
  induction doc using Json.myInduction with
  | hnull => simp [replace_placeholders, stringLeaves]
  | hbool b => simp [replace_placeholders, stringLeaves]
  | hnum n => simp [replace_placeholders, stringLeaves]
  | hstr s => simp [replace_placeholders, stringLeaves]
  | harr xs ih =>
    rw [replace_placeholders_arr, stringLeaves_arr, stringLeaves_arr, List.map_map,
      List.map_flatten, List.map_map]
    refine congrArg List.flatten (List.map_congr_left ?_)
    intro x hx
    simp only [Function.comp]
    exact ih x hx
  | hobj fs ih =>
    rw [replace_placeholders_obj, stringLeaves_obj, stringLeaves_obj, List.map_map,
      List.map_flatten, List.map_map]
    refine congrArg List.flatten (List.map_congr_left ?_)
    intro kv hkv
    simp only [Function.comp]
    exact ih kv hkv

/-- `pyReplace` with a placeholder token: the subject splits into token-free
pieces whose token-joined concatenation is the subject, and the result is the
same pieces joined by the replacement text. -/
theorem pyReplace_token_pieces (k rep s : String) :
    ∃ pieces : List (List Char),
      joinSep (tokChars k) pieces = s.data
      ∧ (∀ q ∈ pieces, ¬ occursIn (tokChars k) q)
      ∧ (pyReplace s (tokenOf k) rep).data = joinSep rep.data pieces := by
  refine ⟨splitGo '{' (tokTail k) s.data.length s.data, ?_, ?_, ?_⟩
  · exact joinSep_splitGo '{' (tokTail k) s.data.length s.data
  · exact fun q hq => splitGo_no_occur '{' (tokTail k) s.data.length s.data (le_refl _) q hq
  · show replaceGo '{' (tokTail k) rep.data s.data.length s.data = _
    exact replaceGo_eq_joinSep '{' (tokTail k) rep.data s.data.length s.data

/-- A string in which no token of the replacement set occurs is left unchanged
by the substitution fold. -/
theorem substStr_id_of_no_token (reps : List (String × String)) :
    ∀ s : String, (∀ kv ∈ reps, hasOccur (tokChars kv.1) s.data = false) → substStr reps s = s := by
  induction reps with
  | nil => intro s _; rfl
  | cons kv rest ih =>
    intro s h
    have hstep : pyReplace s (tokenOf kv.1) kv.2 = s := by
      have hno : ¬ occursIn (tokChars kv.1) s.data := by
        intro hocc
        have := (hasOccur_iff_occursIn (tokChars kv.1) s.data).mpr hocc
        rw [h kv (List.mem_cons_self kv rest)] at this
        exact Bool.false_ne_true this
      show (⟨replaceGo '{' (tokTail kv.1) kv.2.data s.data.length s.data⟩ : String) = s
      rw [replaceGo_id '{' (tokTail kv.1) kv.2.data s.data.length s.data hno]
    show substStr rest (pyReplace s (tokenOf kv.1) kv.2) = s
    rw [hstep]
    exact ih s (fun kv2 h2 => h kv2 (List.mem_cons_of_mem kv h2))

/-!
Helper lemmas: dict update, pop and lookup.
-/

/-- Lookup at a matching head field. -/
theorem lookupDict_cons_pos (kv : String × Json) (fs : List (String × Json)) (k : String)
    (h : (kv.1 == k) = true) : lookupDict (kv :: fs) k = some kv.2 := by
  simp [lookupDict, List.find?, h]

/-- Lookup skips a non-matching head field. -/
theorem lookupDict_cons_neg (kv : String × Json) (fs : List (String × Json)) (k : String)
    (h : (kv.1 == k) = false) : lookupDict (kv :: fs) k = lookupDict fs k := by
  simp [lookupDict, List.find?, h]

/-- After `d[k] = v`, looking up `k` yields `v`. -/
theorem lookupDict_dictSet_self (fs : List (String × Json)) (k : String) (v : Json) :
    lookupDict (dictSet fs k v) k = some v := by
  rw [dictSet]
  by_cases hany : fs.any (fun kv => kv.1 == k) = true
  · rw [if_pos hany]
    induction fs with
    | nil => simp at hany
    | cons kv rest ih =>
      cases hk : (kv.1 == k) with
      | true =>
        rw [List.map_cons, if_pos hk, lookupDict_cons_pos _ _ _ (by simp)]
      | false =>
        simp only [List.any_cons, hk, Bool.false_or] at hany
        rw [List.map_cons, if_neg (by simp [hk]), lookupDict_cons_neg _ _ _ hk]
        exact ih hany
  · rw [if_neg hany]
    rw [Bool.not_eq_true, List.any_eq_false] at hany
    induction fs with
    | nil => simp [lookupDict, List.find?]
    | cons kv rest ih =>
      have hk : (kv.1 == k) = false := by
        have := hany kv (List.mem_cons_self kv rest)
        simpa using this
      rw [List.cons_append, lookupDict_cons_neg _ _ _ hk]
      exact ih (fun kv2 h2 => hany kv2 (List.mem_cons_of_mem kv h2))

/-- After `d[k] = v`, looking up any other key is unchanged. -/
theorem lookupDict_dictSet_other (fs : List (String × Json)) (k : String) (v : Json)
    (k2 : String) (hne : k2 ≠ k) : lookupDict (dictSet fs k v) k2 = lookupDict fs k2 := by
  have hkk2 : (k == k2) = false := by
    simp only [beq_eq_false_iff_ne, ne_eq]
    exact fun h => hne h.symm
  rw [dictSet]
  by_cases hany : fs.any (fun kv => kv.1 == k) = true
  · rw [if_pos hany]
    clear hany
    induction fs with
    | nil => rfl
    | cons kv rest ih =>
      cases hk : (kv.1 == k) with
      | true =>
        have hkv : kv.1 = k := by simpa using hk
        have h1 : ((k, v).1 == k2) = false := hkk2
        have h2 : (kv.1 == k2) = false := by rw [hkv]; exact hkk2
        rw [List.map_cons, if_pos hk, lookupDict_cons_neg _ _ _ h1,
          lookupDict_cons_neg _ _ _ h2]
        exact ih
      | false =>
        rw [List.map_cons, if_neg (by simp [hk])]
        cases hm : (kv.1 == k2) with
        | true =>
          rw [lookupDict_cons_pos _ _ _ hm, lookupDict_cons_pos _ _ _ hm]
        | false =>
          rw [lookupDict_cons_neg _ _ _ hm, lookupDict_cons_neg _ _ _ hm]
          exact ih
  · rw [if_neg hany]
    clear hany
    induction fs with
    | nil =>
      rw [List.nil_append, lookupDict_cons_neg _ _ _ hkk2]
    | cons kv rest ih =>
      rw [List.cons_append]
      cases hm : (kv.1 == k2) with
      | true =>
        rw [lookupDict_cons_pos _ _ _ hm, lookupDict_cons_pos _ _ _ hm]
      | false =>
        rw [lookupDict_cons_neg _ _ _ hm, lookupDict_cons_neg _ _ _ hm]
        exact ih

/-- After `d.pop(k, None)`, the key `k` is gone. -/
theorem lookupDict_dictPop_self (fs : List (String × Json)) (k : String) :
    lookupDict (dictPop fs k) k = none := by
  induction fs with
  | nil => rfl
  | cons kv rest ih =>
    rw [dictPop, List.filter]
    cases hk : (kv.1 == k) with
    | true =>
      have : (kv.1 != k) = false := by simp [bne, hk]
      rw [this]
      exact ih
    | false =>
      have : (kv.1 != k) = true := by simp [bne, hk]
      rw [this, lookupDict_cons_neg _ _ _ hk]
      exact ih

/-- After `d.pop(k, None)`, every other key is unchanged. -/
theorem lookupDict_dictPop_other (fs : List (String × Json)) (k : String)
    (k2 : String) (hne : k2 ≠ k) : lookupDict (dictPop fs k) k2 = lookupDict fs k2 := by
  induction fs with
  | nil => rfl
  | cons kv rest ih =>
    rw [dictPop, List.filter]
    cases hk : (kv.1 == k) with
    | true =>
      have hf : (kv.1 != k) = false := by simp [bne, hk]
      rw [hf]
      have hkv : kv.1 = k := by simpa using hk
      have hm : (kv.1 == k2) = false := by
        rw [hkv]
        simp only [beq_eq_false_iff_ne, ne_eq]
        exact fun h => hne h.symm
      rw [lookupDict_cons_neg _ _ _ hm]
      exact ih
    | false =>
      have hf : (kv.1 != k) = true := by simp [bne, hk]
      rw [hf]
      cases hm : (kv.1 == k2) with
      | true =>
        rw [lookupDict_cons_pos _ _ _ hm, lookupDict_cons_pos _ _ _ hm]
      | false =>
        rw [lookupDict_cons_neg _ _ _ hm, lookupDict_cons_neg _ _ _ hm]
        exact ih

/-!
Claim theorems: the target resolver.
-/

/-- C1. For every string `s` whose dash-stripped form has length exactly 32 and
consists only of lowercase hexadecimal digits, `resolve_target s` returns the
original `s` unchanged (dashes preserved) for every configuration argument,
including when the configuration is absent or contains `s` as a friendly name:
the raw-identifier test short-circuits before any configuration access. -/
theorem resolve_target_raw_id (s : String) (config? : Option Json)
    (hlen : (strReplace ['-'] [] s.data).length = 32)
    (hhex : ∀ c ∈ strReplace ['-'] [] s.data, c ∈ "0123456789abcdef".data) :
    resolve_target s config? = .ok (.str s) := by
  have hraw : looks_like_raw_id s = true := by
    simp only [looks_like_raw_id, Bool.and_eq_true, beq_iff_eq, List.all_eq_true]
    refine ⟨hlen, ?_⟩
    intro c hc
    exact List.elem_eq_true_of_mem (hhex c hc)
  rw [resolve_target.eq_def, if_pos hraw]

/-- Witness for C1: a concrete dashed 32-hex identifier is returned unchanged,
both when the configuration contains it as a friendly-name key and when the
configuration document is absent. -/
theorem resolve_target_raw_id_witness :
    resolve_target rawIdSample (some cfgWithRawKey) = .ok (.str rawIdSample)
    ∧ resolve_target rawIdSample none = .ok (.str rawIdSample) :=
  ⟨resolve_target_raw_id rawIdSample (some cfgWithRawKey) (by decide) (by decide),
   resolve_target_raw_id rawIdSample none (by decide) (by decide)⟩

/-- C3. A friendly name that fails the raw-identifier test and is present in
the `targets` table resolves to the `id` field of its record. -/
theorem resolve_target_friendly_name (name : String) (cfg targets entry : List (String × Json))
    (idv : Json)
    (hraw : looks_like_raw_id name = false)
    (ht : lookupDict cfg "targets" = some (.obj targets))
    (hn : lookupDict targets name = some (.obj entry))
    (hid : lookupDict entry "id" = some idv) :
    resolve_target name (some (.obj cfg)) = .ok idv := by
  simp only [resolve_target, hraw, Bool.false_eq_true, if_false, ht, Option.getD_some, hn, hid]

/-- Witness for C3: the spec scenario, resolving `"project-db"` against a table
mapping it to id `"xyz"`. -/
theorem resolve_target_friendly_name_witness :
    resolve_target "project-db" (some (.obj cfgFields)) = .ok (.str "xyz") :=
  resolve_target_friendly_name "project-db" cfgFields
    [("project-db", .obj [("id", .str "xyz")])] [("id", .str "xyz")] (.str "xyz")
    (by decide) rfl rfl rfl

/-- C5. A name that fails the raw-identifier test and is absent from the
`targets` table of a present configuration fails with the unknown-target error,
whose payload enumerates exactly the currently known friendly names (all keys
of `targets`, zero names when the table is empty). -/
theorem resolve_target_unknown_name (name : String) (cfg targets : List (String × Json))
    (hraw : looks_like_raw_id name = false)
    (ht : lookupDict cfg "targets" = some (.obj targets))
    (hn : lookupDict targets name = none) :
    resolve_target name (some (.obj cfg)) = .unknownTarget (targets.map (fun kv => kv.1)) := by
  simp only [resolve_target, hraw, Bool.false_eq_true, if_false, ht, Option.getD_some, hn]

/-- Witness for C5: the spec scenario, resolving `"missing-target"` against an
empty `targets` table, which enumerates zero available names. -/
theorem resolve_target_unknown_name_witness :
    resolve_target "missing-target" (some (.obj cfgEmptyTargets)) = .unknownTarget [] :=
  resolve_target_unknown_name "missing-target" cfgEmptyTargets [] (by decide) rfl rfl

/-- C8. A name that fails the raw-identifier test, resolved while the
configuration document is absent, fails with the config-not-found error; no
table lookup can influence this outcome since no configuration exists. -/
theorem resolve_target_config_absent (name : String)
    (hraw : looks_like_raw_id name = false) :
    resolve_target name none = .configNotFound := by
  simp only [resolve_target, hraw, Bool.false_eq_true, if_false]

/-- Witness for C8: a concrete friendly name with no configuration. -/
theorem resolve_target_config_absent_witness :
    resolve_target "project-db" none = .configNotFound :=
  resolve_target_config_absent "project-db" (by decide)

/-- C10. When the configuration parses to an object lacking a top-level
`targets` key, the table defaults to empty: every name that fails the
raw-identifier test then fails with the unknown-target error enumerating zero
names, not with a configuration or parse error. -/
theorem resolve_target_targets_key_missing (name : String) (cfg : List (String × Json))
    (hraw : looks_like_raw_id name = false)
    (ht : lookupDict cfg "targets" = none) :
    resolve_target name (some (.obj cfg)) = .unknownTarget [] := by
  simp only [resolve_target, hraw, Bool.false_eq_true, if_false, ht, Option.getD_none]
  simp only [lookupDict, List.find?, Option.map_none', List.map_nil]

/-- Witness for C10: a configuration object with no `targets` key. -/
theorem resolve_target_targets_key_missing_witness :
    resolve_target "some-name" (some (.obj cfgNoTargets)) = .unknownTarget [] :=
  resolve_target_targets_key_missing "some-name" cfgNoTargets (by decide) rfl

/-!
Claim theorems: the template engine.
-/

/-- C2. Substitution returns a tree structurally identical to the input except
at string leaves (shape, field keys and non-string scalars unchanged: conjunct
one); every string leaf is rewritten by the per-key token replacement fold, in
traversal order (conjunct two); for each key, replacing its token rewrites
every occurrence: the subject splits into token-free pieces that rejoin with
the token to give back the subject, and the result is those pieces joined with
the replacement text (conjunct three); a string containing no token of any key
present in the replacement set is left untouched, so tokens of absent keys
survive literally and cause no error (conjunct four). -/
theorem replace_placeholders_spec (reps : List (String × String)) (doc : Json) :
    eraseStrings (replace_placeholders reps doc) = eraseStrings doc
    ∧ stringLeaves (replace_placeholders reps doc) = (stringLeaves doc).map (substStr reps)
    ∧ (∀ k rep s : String, ∃ pieces : List (List Char),
        joinSep (tokChars k) pieces = s.data
        ∧ (∀ q ∈ pieces, ¬ occursIn (tokChars k) q)
        ∧ (pyReplace s (tokenOf k) rep).data = joinSep rep.data pieces)
    ∧ (∀ s : String, (∀ kv ∈ reps, hasOccur (tokChars kv.1) s.data = false) →
        substStr reps s = s) :=
  ⟨eraseStrings_replace reps doc, stringLeaves_replace reps doc,
   fun k rep s => pyReplace_token_pieces k rep s,
   fun s h => substStr_id_of_no_token reps s h⟩

/-- Witness for C2: the spec scenario applied to a concrete template, plus a
string with no matching token left unchanged. -/
theorem replace_placeholders_spec_witness :
    eraseStrings (replace_placeholders repsSample docSample) = eraseStrings docSample
    ∧ stringLeaves (replace_placeholders repsSample docSample) =
        (stringLeaves docSample).map (substStr repsSample)
    ∧ substStr repsSample "hi" = "hi" := by
  have h := replace_placeholders_spec repsSample docSample
  exact ⟨h.1, h.2.1, h.2.2.2 "hi" (by decide)⟩

/-- C6. Substitution with an empty replacement set is the identity. -/
theorem replace_placeholders_empty (doc : Json) : replace_placeholders [] doc = doc := by
  induction doc using Json.myInduction with
  | hnull => simp [replace_placeholders]
  | hbool b => simp [replace_placeholders]
  | hnum n => simp [replace_placeholders]
  | hstr s => simp [replace_placeholders, substStr]
  | harr xs ih =>
    rw [replace_placeholders_arr]
    have hmap : xs.map (replace_placeholders []) = xs.map id :=
      List.map_congr_left (fun x hx => ih x hx)
    rw [hmap, List.map_id]
  | hobj fs ih =>
    rw [replace_placeholders_obj]
    have hmap : fs.map (fun kv => (kv.1, replace_placeholders [] kv.2)) = fs.map id :=
      List.map_congr_left (fun kv hkv => by rw [ih kv hkv]; rfl)
    rw [hmap, List.map_id]

/-- C9. Substitution is sequential, not simultaneous: the keys are folded one
after another over the accumulated string, so the token of a later key
introduced by the replacement value of an earlier key is itself replaced
(first and second conjuncts), and on this replacement set the result differs
from a simultaneous single-pass substitution of the original string (third and
fourth conjuncts). -/
theorem substitution_sequential_not_simultaneous :
    substStr seqReps "\x7b\x7bA\x7d\x7d" = "x"
    ∧ substStr [("B", "x")] (substStr [("A", "\x7b\x7bB\x7d\x7d")] "\x7b\x7bA\x7d\x7d")
        = substStr seqReps "\x7b\x7bA\x7d\x7d"
    ∧ simultSubst seqReps "\x7b\x7bA\x7d\x7d" = "\x7b\x7bB\x7d\x7d"
    ∧ substStr seqReps "\x7b\x7bA\x7d\x7d" ≠ simultSubst seqReps "\x7b\x7bA\x7d\x7d" :=
  ⟨rfl, rfl, rfl, by decide⟩

/-!
Claim theorems: body finalization by the page-creation entry points.
-/

/-- C7 counterexample. The claim states that every page-creation entry point
sets both `parent` and `icon` and removes a present `object` field before the
body reaches the API layer; `cmd_create_page` (`notion_client.py` lines 74-90)
refutes it: on a body with an `object` field it keeps that field and adds no
`icon`. -/
theorem cmd_create_page_counterexample :
    lookupDict (cmd_create_page_finalize [("object", Json.str "page")] "abc123") "object"
        = some (Json.str "page")
    ∧ lookupDict (cmd_create_page_finalize [("object", Json.str "page")] "abc123") "icon"
        = none :=
  ⟨rfl, rfl⟩

/-- C7 amended. `create_project_page` sets `parent` and `icon`, removes a
present `object` field, and leaves every other top-level field unchanged;
`cmd_create_page` sets only `parent` and leaves every other top-level field
(including a present `object`) unchanged, adding no `icon`. -/
theorem page_creation_finalize_fields (body : List (String × Json)) (pid icon : String)
    (k : String) (hk1 : k ≠ "parent") (hk2 : k ≠ "icon") (hk3 : k ≠ "object") :
    lookupDict (create_project_finalize body pid icon) "parent"
        = some (.obj [("page_id", .str pid)])
    ∧ lookupDict (create_project_finalize body pid icon) "icon"
        = some (.obj [("type", .str "emoji"), ("emoji", .str icon)])
    ∧ lookupDict (create_project_finalize body pid icon) "object" = none
    ∧ lookupDict (create_project_finalize body pid icon) k = lookupDict body k
    ∧ lookupDict (cmd_create_page_finalize body pid) "parent"
        = some (.obj [("page_id", .str pid)])
    ∧ (∀ k2, k2 ≠ "parent" →
        lookupDict (cmd_create_page_finalize body pid) k2 = lookupDict body k2) := by
  refine ⟨?_, ?_, ?_, ?_, ?_, ?_⟩
  · rw [create_project_finalize, lookupDict_dictPop_other _ _ _ (by decide),
      lookupDict_dictSet_other _ _ _ _ (by decide), lookupDict_dictSet_self]
  · rw [create_project_finalize, lookupDict_dictPop_other _ _ _ (by decide),
      lookupDict_dictSet_self]
  · rw [create_project_finalize, lookupDict_dictPop_self]
  · rw [create_project_finalize, lookupDict_dictPop_other _ _ _ hk3,
      lookupDict_dictSet_other _ _ _ _ hk2, lookupDict_dictSet_other _ _ _ _ hk1]
  · rw [cmd_create_page_finalize, lookupDict_dictSet_self]
  · intro k2 hk
    rw [cmd_create_page_finalize, lookupDict_dictSet_other _ _ _ _ hk]

/-- Witness for C7 amended: the finalization applied to a concrete substituted
body carrying a stray `object` field and a `properties` field. -/
theorem page_creation_finalize_fields_witness :
    lookupDict (create_project_finalize bodySample "abc" "rocket") "parent"
        = some (.obj [("page_id", .str "abc")])
    ∧ lookupDict (create_project_finalize bodySample "abc" "rocket") "icon"
        = some (.obj [("type", .str "emoji"), ("emoji", .str "rocket")])
    ∧ lookupDict (create_project_finalize bodySample "abc" "rocket") "object" = none
    ∧ lookupDict (create_project_finalize bodySample "abc" "rocket") "properties"
        = lookupDict bodySample "properties"
    ∧ lookupDict (cmd_create_page_finalize bodySample "abc") "parent"
        = some (.obj [("page_id", .str "abc")])
    ∧ (∀ k2, k2 ≠ "parent" →
        lookupDict (cmd_create_page_finalize bodySample "abc") k2 = lookupDict bodySample k2) :=
  page_creation_finalize_fields bodySample "abc" "rocket" "properties"
    (by decide) (by decide) (by decide)

/-!
Helper lemmas: the heap model.
-/

/-- Allocation does not touch any other address. -/
theorem halloc_mem_ne (h : Heap) (v : PyVal) (b : Nat) (hb : b ≠ h.next) :
    (halloc h v).2.mem b = h.mem b := by
  simp [halloc, hb]

/-- Allocation bumps the allocation pointer by one. -/
theorem halloc_next (h : Heap) (v : PyVal) : (halloc h v).2.next = h.next + 1 := rfl

/-- Allocation preserves well-formedness. -/
theorem halloc_wf (h : Heap) (v : PyVal) (hwf : heapWF h) : heapWF (halloc h v).2 := by
  intro b hb
  rw [halloc_next] at hb
  rw [halloc_mem_ne h v b (by omega)]
  exact hwf b (by omega)

/-- Frame property of the heap-level substitution: on a well-formed heap, a
successful run never writes to a pre-existing address, only allocates beyond
the old allocation pointer, and returns a well-formed heap. -/
theorem replacePHs_frame (reps : List (String × String)) :
    ∀ fuel (l : List Nat) (h : Heap) (out : List Nat × Heap),
      heapWF h → replacePHs reps fuel l h = some out →
      (∀ b, b < h.next → out.2.mem b = h.mem b) ∧ h.next ≤ out.2.next ∧ heapWF out.2 := by
  intro fuel
  induction fuel with
  | zero =>
    intro l h out hwf hrun
    simp [replacePHs] at hrun
  | succ fuel ih =>
    intro l h out hwf hrun
    match l with
    | [] =>
      simp only [replacePHs, Option.some.injEq] at hrun
      subst hrun
      exact ⟨fun b _ => rfl, le_refl _, hwf⟩
    | a :: rest =>
      rw [replacePHs] at hrun
      cases hm : h.mem a with
      | none => rw [hm] at hrun; simp at hrun
      | some v =>
        rw [hm] at hrun
        cases v with
        | vstr s =>
          simp only [Option.map_eq_some'] at hrun
          obtain ⟨q, hr, hout⟩ := hrun
          subst hout
          obtain ⟨f1, n1, w1⟩ :=
            ih rest (halloc h (.vstr (substStr reps s))).2 q
              (halloc_wf h _ hwf) hr
          rw [halloc_next] at n1
          refine ⟨?_, show h.next ≤ q.2.next by omega, w1⟩
          intro b hb
          rw [f1 b (by rw [halloc_next]; omega), halloc_mem_ne h _ b (by omega)]
        | vlist es =>
          simp only [Option.bind_eq_some, Option.map_eq_some'] at hrun
          obtain ⟨r, hr1, q, hr2, hout⟩ := hrun
          subst hout
          obtain ⟨f1, n1, w1⟩ := ih es h r hwf hr1
          obtain ⟨f2, n2, w2⟩ :=
            ih rest (halloc r.2 (.vlist r.1)).2 q (halloc_wf r.2 _ w1) hr2
          rw [halloc_next] at n2
          refine ⟨?_, show h.next ≤ q.2.next by omega, w2⟩
          intro b hb
          rw [f2 b (by rw [halloc_next]; omega),
            halloc_mem_ne r.2 _ b (by omega), f1 b hb]
        | vdict fs =>
          simp only [Option.bind_eq_some, Option.map_eq_some'] at hrun
          obtain ⟨r, hr1, q, hr2, hout⟩ := hrun
          subst hout
          obtain ⟨f1, n1, w1⟩ := ih (fs.map (fun kv => kv.2)) h r hwf hr1
          obtain ⟨f2, n2, w2⟩ :=
            ih rest (halloc r.2 (.vdict ((fs.map (fun kv => kv.1)).zip r.1))).2 q
              (halloc_wf r.2 _ w1) hr2
          rw [halloc_next] at n2
          refine ⟨?_, show h.next ≤ q.2.next by omega, w2⟩
          intro b hb
          rw [f2 b (by rw [halloc_next]; omega),
            halloc_mem_ne r.2 _ b (by omega), f1 b hb]
        | vnull =>
          simp only [Option.map_eq_some'] at hrun
          obtain ⟨q, hr, hout⟩ := hrun
          subst hout
          exact ih rest h q hwf hr
        | vbool b0 =>
          simp only [Option.map_eq_some'] at hrun
          obtain ⟨q, hr, hout⟩ := hrun
          subst hout
          exact ih rest h q hwf hr
        | vnum n0 =>
          simp only [Option.map_eq_some'] at hrun
          obtain ⟨q, hr, hout⟩ := hrun
          subst hout
          exact ih rest h q hwf hr

/-- Decoding is stable under heap extension: if a second heap agrees with a
well-formed heap on all addresses below its allocation pointer, every document
that decoded successfully still decodes to the same tree. -/
theorem readVals_agree (h h2 : Heap) (hag : ∀ b, b < h.next → h2.mem b = h.mem b)
    (hwf : heapWF h) :
    ∀ n (l : List Nat) (ds : List Json), readVals n h l = some ds → readVals n h2 l = some ds := by
  intro n
  induction n with
  | zero => intro l ds hrun; simp [readVals] at hrun
  | succ n ih =>
    intro l ds hrun
    match l with
    | [] =>
      rw [readVals] at hrun ⊢
      exact hrun
    | a :: rest =>
      rw [readVals] at hrun ⊢
      cases hm : h.mem a with
      | none => rw [hm] at hrun; simp at hrun
      | some v =>
        have ha : a < h.next := by
          by_contra hcon
          rw [hwf a (by omega)] at hm
          exact Option.noConfusion hm
        rw [hm] at hrun
        rw [hag a ha, hm]
        cases v with
        | vnull =>
          simp only [Option.map_eq_some'] at hrun ⊢
          obtain ⟨ds2, hr, hds⟩ := hrun
          exact ⟨ds2, ih rest ds2 hr, hds⟩
        | vbool b0 =>
          simp only [Option.map_eq_some'] at hrun ⊢
          obtain ⟨ds2, hr, hds⟩ := hrun
          exact ⟨ds2, ih rest ds2 hr, hds⟩
        | vnum n0 =>
          simp only [Option.map_eq_some'] at hrun ⊢
          obtain ⟨ds2, hr, hds⟩ := hrun
          exact ⟨ds2, ih rest ds2 hr, hds⟩
        | vstr s =>
          simp only [Option.map_eq_some'] at hrun ⊢
          obtain ⟨ds2, hr, hds⟩ := hrun
          exact ⟨ds2, ih rest ds2 hr, hds⟩
        | vlist es =>
          simp only [Option.bind_eq_some, Option.map_eq_some'] at hrun ⊢
          obtain ⟨ds1, hr1, ds2, hr2, hds⟩ := hrun
          exact ⟨ds1, ih es ds1 hr1, ds2, ih rest ds2 hr2, hds⟩
        | vdict fs =>
          simp only [Option.bind_eq_some, Option.map_eq_some'] at hrun ⊢
          obtain ⟨ds1, hr1, ds2, hr2, hds⟩ := hrun
          exact ⟨ds1, ih (fs.map (fun kv => kv.2)) ds1 hr1, ds2, ih rest ds2 hr2, hds⟩

/-- C4. The heap-level substitution never mutates its input: a successful run
on a well-formed heap leaves every pre-existing heap cell byte-identical
(first conjunct), so in particular the document rooted at the argument address
still decodes to exactly the tree it decoded to before the call (second
conjunct). The Python function builds its result from fresh strings, list and
dict comprehensions, and `create_project_page` additionally operates on a
`copy.deepcopy` of the loaded template. -/
theorem replace_placeholders_no_mutation (reps : List (String × String)) (fuel : Nat)
    (a : Nat) (h : Heap) (out : Nat × Heap)
    (hwf : heapWF h) (hrun : replacePlaceholdersH reps fuel a h = some out) :
    (∀ b, b < h.next → out.2.mem b = h.mem b)
    ∧ (∀ n (d : Json), readVal n h a = some d → readVal n out.2 a = some d) := by
  rw [replacePlaceholdersH] at hrun
  simp only [Option.bind_eq_some, Option.map_eq_some'] at hrun
  obtain ⟨p, hp, a1, ha1, hout⟩ := hrun
  subst hout
  obtain ⟨f1, n1, w1⟩ := replacePHs_frame reps fuel [a] h p hwf hp
  refine ⟨f1, ?_⟩
  intro n d hd
  rw [readVal] at hd ⊢
  simp only [Option.bind_eq_some] at hd ⊢
  obtain ⟨ds, hds, hhead⟩ := hd
  exact ⟨ds, readVals_agree h p.2 f1 hwf n [a] ds hds, hhead⟩

/-- Witness for C4: running the heap-level substitution on a concrete
one-string heap leaves the pre-existing cell untouched and the original
document still decodes unchanged. -/
theorem replace_placeholders_no_mutation_witness :
    (∀ b, b < heapSample.next → heapRunResult.2.mem b = heapSample.mem b)
    ∧ (∀ n (d : Json), readVal n heapSample 0 = some d → readVal n heapRunResult.2 0 = some d) :=
  replace_placeholders_no_mutation repsHeap 2 0 heapSample heapRunResult
    (fun b hb => by
      simp only [heapSample] at hb ⊢
      rw [if_neg (by omega)])
    rfl
